import Mathlib

/-!
# Verification of `lemire_rng.c`

A shallow embedding of the bounded uniform sampler in `src/lemire_rng.c`
(Lemire's multiply-high-word rejection sampling), together with proofs of
its specified properties.

Machine integers are modelled as `Nat` with explicit reductions modulo
`2^32` / `2^64` where the C code truncates.  The caller-supplied random
source is modelled as a finite list of draws; exhausting the list while the
rejection loop still wants a fresh draw is modelled as `none`.
-/

namespace LemireRng

/-- Embedding of `compute_interval` from `src/lemire_rng.c`:
`n_times_range = n * (uint64_t)range` is 64-bit arithmetic (reduce mod `2^64`);
`i = (uint32_t)(n_times_range >> 32)` and `j = (uint32_t)n_times_range`
truncate to 32 bits. -/
def compute_interval (n range : ℕ) : ℕ × ℕ :=
  let n_times_range : ℕ := (n * range) % 2 ^ 64
  (n_times_range / 2 ^ 32 % 2 ^ 32, n_times_range % 2 ^ 32)

/-- Embedding of `(-range) % range` from `src/lemire_rng.c` line 86:
two's-complement negation of `range` in `uint32` arithmetic
(`(2^32 - range % 2^32) % 2^32`), then modulo `range`. -/
def rejection_interval_upper_bound (range : ℕ) : ℕ :=
  (2 ^ 32 - range % 2 ^ 32) % 2 ^ 32 % range

/-- Embedding of the `while (j < rejection_interval_upper_bound)` loop of
`lemire_rng` (lines 87-91), given the current `i`, `j` and the remaining
draws.  Returns `some (value, extraDraws)` on acceptance (`value` is the
final `i`, `extraDraws` the number of draws consumed by the loop itself),
`none` if the draw list runs out while still rejecting. -/
def lemire_loop (range bound i j : ℕ) : List ℕ → Option (ℕ × ℕ)
  | [] => if j < bound then none else some (i, 0)
  | n :: rest =>
    if j < bound then
      match lemire_loop range bound (compute_interval n range).1
          (compute_interval n range).2 rest with
      | none => none
      | some (v, k) => some (v, k + 1)
    else some (i, 0)

/-- Embedding of `lemire_rng` from `src/lemire_rng.c` (lines 34-95).
`result0` is the value behind the `result` pointer before the call; draws
from `get_random_uniform_32bits_integer` are taken from `draws` in order.
Returns `some (code, result, consumed)`: `code` is the C return value,
`result` the final value behind the pointer, `consumed` the number of draws
taken from the source.  `none` models exhausting the finite draw list. -/
def lemire_rng (range result0 : ℕ) (draws : List ℕ) : Option (ℕ × ℕ × ℕ) :=
  if range = 0 then
    some (1, result0, 0)
  else
    match draws with
    | [] => none
    | n :: rest =>
      let ij := compute_interval n range
      if range ≤ ij.2 then
        some (0, ij.1, 1)
      else
        match lemire_loop range (rejection_interval_upper_bound range) ij.1 ij.2 rest with
        | none => none
        | some (v, k) => some (0, v, k + 1)

/-- Variant of `lemire_rng` with the fast-accept branch
(`if (j >= range)`, lines 77-81) removed: it always computes the threshold
and runs the rejection test.  Used to state that the branch is a pure
optimization. -/
def lemire_rng_noFast (range result0 : ℕ) (draws : List ℕ) : Option (ℕ × ℕ × ℕ) :=
  if range = 0 then
    some (1, result0, 0)
  else
    match draws with
    | [] => none
    | n :: rest =>
      let ij := compute_interval n range
      match lemire_loop range (rejection_interval_upper_bound range) ij.1 ij.2 rest with
      | none => none
      | some (v, k) => some (0, v, k + 1)

/-- Position (1-based) and value of the first draw in the list whose low
word `(compute_interval n range).2` clears the rejection bound; `none` if
every draw is rejected. -/
def first_accept (range bound : ℕ) : List ℕ → Option (ℕ × ℕ)
  | [] => none
  | n :: rest =>
    if (compute_interval n range).2 < bound then
      (first_accept range bound rest).map (fun p => (p.1, p.2 + 1))
    else some (n, 1)

/-! ## Basic facts about the embedding -/

/-- The low word computed by `compute_interval` is `(n * range) % 2^32`,
with no side condition: the `uint64` truncation is absorbed because
`2^32 ∣ 2^64`. -/
lemma compute_interval_snd (n range : ℕ) :
    (compute_interval n range).2 = n * range % 2 ^ 32 := by
  unfold compute_interval
  exact Nat.mod_mod_of_dvd _ ⟨2 ^ 32, by norm_num⟩

lemma mul_lt_two_pow_64 {n range : ℕ} (hn : n < 2 ^ 32) (hr : range < 2 ^ 32) :
    n * range < 2 ^ 64 := by
  calc n * range < 2 ^ 32 * 2 ^ 32 :=
        Nat.mul_lt_mul_of_lt_of_le hn (Nat.le_of_lt hr) (by norm_num)
    _ = 2 ^ 64 := by norm_num

/-- For genuine 32-bit inputs the high word computed by `compute_interval`
is exactly `(n * range) / 2^32`. -/
lemma compute_interval_fst {n range : ℕ} (hn : n < 2 ^ 32) (hr : range < 2 ^ 32) :
    (compute_interval n range).1 = n * range / 2 ^ 32 := by
  unfold compute_interval
  have h64 : n * range % 2 ^ 64 = n * range :=
    Nat.mod_eq_of_lt (mul_lt_two_pow_64 hn hr)
  have hdiv : n * range / 2 ^ 32 < 2 ^ 32 := by
    rw [Nat.div_lt_iff_lt_mul (by norm_num : 0 < 2 ^ 32)]
    calc n * range < 2 ^ 64 := mul_lt_two_pow_64 hn hr
      _ = 2 ^ 32 * 2 ^ 32 := by norm_num
  simp only [h64]
  exact Nat.mod_eq_of_lt hdiv

/-- For genuine 32-bit inputs the high word is below `range`. -/
lemma compute_interval_fst_lt {n range : ℕ} (hr : 0 < range)
    (hn : n < 2 ^ 32) (hr2 : range < 2 ^ 32) :
    (compute_interval n range).1 < range := by
  rw [compute_interval_fst hn hr2]
  rw [Nat.div_lt_iff_lt_mul (by norm_num : 0 < 2 ^ 32)]
  calc n * range < 2 ^ 32 * range :=
        Nat.mul_lt_mul_of_lt_of_le hn (Nat.le_refl range) hr
    _ = range * 2 ^ 32 := Nat.mul_comm _ _

/-- The `uint32` expression `(-range) % range` equals `2^32 % range`
for every nonzero 32-bit `range`. -/
lemma threshold_eq {range : ℕ} (h1 : 0 < range) (h2 : range < 2 ^ 32) :
    rejection_interval_upper_bound range = 2 ^ 32 % range := by
  unfold rejection_interval_upper_bound
  rw [Nat.mod_eq_of_lt h2, Nat.mod_eq_of_lt (by omega : 2 ^ 32 - range < 2 ^ 32)]
  conv_rhs => rw [show (2 : ℕ) ^ 32 = (2 ^ 32 - range) + range by omega]
  rw [Nat.add_mod_right]

/-- The rejection threshold is always strictly below `range`. -/
lemma threshold_lt {range : ℕ} (h1 : 0 < range) (h2 : range < 2 ^ 32) :
    rejection_interval_upper_bound range < range := by
  rw [threshold_eq h1 h2]
  exact Nat.mod_lt _ h1

/-! ## Counting the accepted preimages of each output value -/

/-- Ceiling-division characterization of `a ≤ n * r`. -/
lemma ceil_le_iff (a r n : ℕ) (hr : 0 < r) : (a + r - 1) / r ≤ n ↔ a ≤ n * r := by
  have h : n + 1 ≤ (a + r - 1) / r ↔ (n + 1) * r ≤ a + r - 1 :=
    Nat.le_div_iff_mul_le hr
  rw [Nat.add_one_mul] at h
  omega

lemma ceil_lt_iff (a r q n : ℕ) (hr : 0 < r) :
    n < (a + r - 1) / r + q ↔ n * r < a + r * q := by
  have h1 := ceil_le_iff (a + r * q) r n hr
  have h2 : (a + r * q + r - 1) / r = (a + r - 1) / r + q := by
    have h3 := Nat.add_mul_div_right (a + r - 1) q hr
    rw [← h3]
    congr 1
    rw [Nat.mul_comm r q]
    omega
  rw [h2] at h1
  omega

/-- In `[0, M)`, the number of `n` whose multiple `n * r` lands in a
half-open interval of length `r * q` is exactly `q`. -/
lemma count_multiples (a r q M : ℕ) (hr : 0 < r) (hM : a + r * q ≤ r * M) :
    ((Finset.range M).filter (fun n => a ≤ n * r ∧ n * r < a + r * q)).card = q := by
  have hset : (Finset.range M).filter (fun n => a ≤ n * r ∧ n * r < a + r * q)
      = Finset.Ico ((a + r - 1) / r) ((a + r - 1) / r + q) := by
    ext n
    simp only [Finset.mem_filter, Finset.mem_range, Finset.mem_Ico]
    constructor
    · rintro ⟨hn, hge, hlt⟩
      exact ⟨(ceil_le_iff a r n hr).mpr hge, (ceil_lt_iff a r q n hr).mpr hlt⟩
    · rintro ⟨hge, hlt⟩
      have hge' := (ceil_le_iff a r n hr).mp hge
      have hlt' := (ceil_lt_iff a r q n hr).mp hlt
      refine ⟨?_, hge', hlt'⟩
      have hnr : n * r < M * r := by
        calc n * r < a + r * q := hlt'
          _ ≤ r * M := hM
          _ = M * r := Nat.mul_comm r M
      exact Nat.lt_of_mul_lt_mul_right hnr
  rw [hset, Nat.card_Ico]
  omega

/-- The rejection-sampling acceptance condition on the `(i, j)` pair is the
same as `n * range` landing in the accept zone of block `v`. -/
lemma accept_iff (range v n : ℕ) :
    (2 ^ 32 % range ≤ n * range % 2 ^ 32 ∧ n * range / 2 ^ 32 = v) ↔
    (v * 2 ^ 32 + 2 ^ 32 % range ≤ n * range ∧
      n * range < v * 2 ^ 32 + 2 ^ 32 % range + range * (2 ^ 32 / range)) := by
  have ht := Nat.div_add_mod (2 ^ 32) range
  omega

/-! ## Characterizing the rejection loop -/

/-- When the loop starts in the accepting state, it consumes nothing. -/
lemma lemire_loop_done (range bound i j : ℕ) (draws : List ℕ) (hj : bound ≤ j) :
    lemire_loop range bound i j draws = some (i, 0) := by
  cases draws with
  | nil => simp [lemire_loop, Nat.not_lt.mpr hj]
  | cons n rest => simp [lemire_loop, Nat.not_lt.mpr hj]

/-- When the loop starts in the rejecting state, it finds the first draw in
the list whose low word clears the bound, and returns its high word
together with the number of draws consumed. -/
lemma lemire_loop_finds (range bound i j : ℕ) (draws : List ℕ) (hj : j < bound) :
    lemire_loop range bound i j draws =
      (first_accept range bound draws).map
        (fun p => ((compute_interval p.1 range).1, p.2)) := by
  induction draws generalizing i j with
  | nil =>
    simp [lemire_loop, first_accept, hj]
  | cons n rest ih =>
    by_cases hj' : (compute_interval n range).2 < bound
    · rw [lemire_loop, if_pos hj, ih _ _ hj']
      rw [first_accept, if_pos hj']
      cases first_accept range bound rest with
      | none => simp
      | some p => simp
    · rw [lemire_loop, if_pos hj,
        lemire_loop_done range bound _ _ rest (Nat.not_lt.mp hj')]
      rw [first_accept, if_neg hj']
      simp

/-- Any value produced by the loop is the initial high word or the high
word of one of the remaining draws. -/
lemma lemire_loop_result (range bound : ℕ) (draws : List ℕ) (i j v k : ℕ)
    (h : lemire_loop range bound i j draws = some (v, k)) :
    v = i ∨ ∃ n ∈ draws, v = (compute_interval n range).1 := by
  induction draws generalizing i j k with
  | nil =>
    rw [lemire_loop] at h
    by_cases hj : j < bound
    · simp [hj] at h
    · simp [hj] at h
      exact Or.inl h.1.symm
  | cons n rest ih =>
    rw [lemire_loop] at h
    by_cases hj : j < bound
    · rw [if_pos hj] at h
      cases hrec : lemire_loop range bound (compute_interval n range).1
          (compute_interval n range).2 rest with
      | none => rw [hrec] at h; exact absurd h (by simp)
      | some p =>
        obtain ⟨pv, pk⟩ := p
        rw [hrec] at h
        simp at h
        obtain ⟨hpv, hpk⟩ := h
        rcases ih _ _ _ (hpv ▸ hrec) with heq | ⟨m, hm, hmv⟩
        · exact Or.inr ⟨n, List.mem_cons_self n rest, heq⟩
        · exact Or.inr ⟨m, List.mem_cons_of_mem n hm, hmv⟩
    · rw [if_neg hj] at h
      simp at h
      exact Or.inl h.1.symm

/-- The first accepted draw is at a positive position and belongs to the
list. -/
lemma first_accept_mem (range bound : ℕ) (draws : List ℕ) (m k : ℕ)
    (h : first_accept range bound draws = some (m, k)) :
    1 ≤ k ∧ m ∈ draws ∧ bound ≤ (compute_interval m range).2 := by
  induction draws generalizing k with
  | nil => exact absurd h (by simp [first_accept])
  | cons n rest ih =>
    rw [first_accept] at h
    by_cases hj : (compute_interval n range).2 < bound
    · rw [if_pos hj] at h
      cases hrec : first_accept range bound rest with
      | none => rw [hrec] at h; exact absurd h (by simp)
      | some p =>
        obtain ⟨pm, pk⟩ := p
        rw [hrec] at h
        simp at h
        obtain ⟨hm, hk⟩ := h
        obtain ⟨h1, h2, h3⟩ := ih pk (hm ▸ hrec)
        exact ⟨by omega, List.mem_cons_of_mem n h2, h3⟩
    · rw [if_neg hj] at h
      simp at h
      obtain ⟨hm, hk⟩ := h
      exact ⟨by omega, by rw [← hm]; exact List.mem_cons_self n rest,
        by rw [← hm]; exact Nat.not_lt.mp hj⟩

/-- If some draw in the list is acceptable, the scan succeeds. -/
lemma first_accept_isSome (range bound : ℕ) (draws : List ℕ)
    (h : ∃ n ∈ draws, bound ≤ (compute_interval n range).2) :
    (first_accept range bound draws).isSome = true := by
  induction draws with
  | nil => simp at h
  | cons n rest ih =>
    rw [first_accept]
    by_cases hj : (compute_interval n range).2 < bound
    · rw [if_pos hj]
      obtain ⟨m, hm, hacc⟩ := h
      rcases List.mem_cons.mp hm with rfl | hm'
      · omega
      · have hsome := ih ⟨m, hm', hacc⟩
        cases hfa : first_accept range bound rest with
        | none => rw [hfa] at hsome; simp at hsome
        | some p => simp [hfa]
    · rw [if_neg hj]
      rfl

/-! ## Unfolding lemmas for `lemire_rng` -/

lemma lemire_rng_nil (range result0 : ℕ) (hr : range ≠ 0) :
    lemire_rng range result0 [] = none := by
  rw [lemire_rng, if_neg hr]

lemma lemire_rng_cons (range result0 n : ℕ) (rest : List ℕ) (hr : range ≠ 0) :
    lemire_rng range result0 (n :: rest) =
      if range ≤ (compute_interval n range).2 then
        some (0, (compute_interval n range).1, 1)
      else
        match lemire_loop range (rejection_interval_upper_bound range)
            (compute_interval n range).1 (compute_interval n range).2 rest with
        | none => none
        | some (v, k) => some (0, v, k + 1) := by
  rw [lemire_rng, if_neg hr]

lemma lemire_rng_noFast_nil (range result0 : ℕ) (hr : range ≠ 0) :
    lemire_rng_noFast range result0 [] = none := by
  rw [lemire_rng_noFast, if_neg hr]

lemma lemire_rng_noFast_cons (range result0 n : ℕ) (rest : List ℕ) (hr : range ≠ 0) :
    lemire_rng_noFast range result0 (n :: rest) =
      match lemire_loop range (rejection_interval_upper_bound range)
          (compute_interval n range).1 (compute_interval n range).2 rest with
      | none => none
      | some (v, k) => some (0, v, k + 1) := by
  rw [lemire_rng_noFast, if_neg hr]

/-! ## The claims -/

/-- C1: for every `range > 0` and every `v < range`, the number of 32-bit
values `n` in `[0, 2^32)` that are accepted (`(n*range) mod 2^32 ≥ 2^32 mod
range`) and map to `v` (`(n*range) >> 32 = v`) is exactly
`⌊2^32 / range⌋`; the accepted mapping is exactly uniform over
`[0, range)`. -/
theorem lemire_uniform_count (range v : ℕ) (h1 : 0 < range) (h2 : range < 2 ^ 32)
    (hv : v < range) :
    ((Finset.range (2 ^ 32)).filter (fun n =>
      2 ^ 32 % range ≤ (compute_interval n range).2 ∧
        (compute_interval n range).1 = v)).card = 2 ^ 32 / range := by
  have hcongr : (Finset.range (2 ^ 32)).filter (fun n =>
      2 ^ 32 % range ≤ (compute_interval n range).2 ∧ (compute_interval n range).1 = v)
      = (Finset.range (2 ^ 32)).filter (fun n =>
        v * 2 ^ 32 + 2 ^ 32 % range ≤ n * range ∧
          n * range < v * 2 ^ 32 + 2 ^ 32 % range + range * (2 ^ 32 / range)) := by
    apply Finset.filter_congr
    intro n hn
    rw [Finset.mem_range] at hn
    rw [compute_interval_snd, compute_interval_fst hn h2]
    exact accept_iff range v n
  rw [hcongr]
  have hub : v * 2 ^ 32 + 2 ^ 32 % range + range * (2 ^ 32 / range)
      ≤ range * 2 ^ 32 := by
    have ht := Nat.div_add_mod (2 ^ 32) range
    have hm : (v + 1) * 2 ^ 32 ≤ range * 2 ^ 32 := Nat.mul_le_mul_right _ hv
    omega
  exact count_multiples _ range _ _ h1 hub

/-- C1 witness: at `range = 3`, `v = 1`, the accepted preimage count is
`⌊2^32 / 3⌋`. -/
theorem lemire_uniform_count_witness :
    ((Finset.range (2 ^ 32)).filter (fun n =>
      2 ^ 32 % 3 ≤ (compute_interval n 3).2 ∧
        (compute_interval n 3).1 = 1)).card = 2 ^ 32 / 3 :=
  lemire_uniform_count 3 1 (by decide) (by decide) (by decide)

/-- C2: for every `range > 0` and every (32-bit) draw sequence on which
the call terminates, `lemire_rng` returns code `0` and stores a value
`v < range`. -/
theorem lemire_range_containment (range result0 : ℕ) (draws : List ℕ)
    (out : ℕ × ℕ × ℕ) (h1 : 0 < range) (h2 : range < 2 ^ 32)
    (hd : ∀ n ∈ draws, n < 2 ^ 32)
    (h : lemire_rng range result0 draws = some out) :
    out.1 = 0 ∧ out.2.1 < range := by
  have hr : range ≠ 0 := Nat.pos_iff_ne_zero.mp h1
  cases draws with
  | nil => rw [lemire_rng_nil range result0 hr] at h; exact absurd h (by simp)
  | cons n rest =>
    have hn : n < 2 ^ 32 := hd n (List.mem_cons_self n rest)
    rw [lemire_rng_cons range result0 n rest hr] at h
    by_cases hf : range ≤ (compute_interval n range).2
    · rw [if_pos hf] at h
      have hout : ((0 : ℕ), (compute_interval n range).1, 1) = out :=
        Option.some.inj h
      subst hout
      exact ⟨rfl, compute_interval_fst_lt h1 hn h2⟩
    · rw [if_neg hf] at h
      cases hloop : lemire_loop range (rejection_interval_upper_bound range)
          (compute_interval n range).1 (compute_interval n range).2 rest with
      | none => rw [hloop] at h; exact absurd h (by simp)
      | some p =>
        obtain ⟨pv, pk⟩ := p
        rw [hloop] at h
        have hout : ((0 : ℕ), pv, pk + 1) = out := Option.some.inj h
        subst hout
        refine ⟨rfl, ?_⟩
        rcases lemire_loop_result range _ rest _ _ _ _ hloop with heq | ⟨m, hm, hmv⟩
        · rw [heq]
          exact compute_interval_fst_lt h1 hn h2
        · rw [hmv]
          exact compute_interval_fst_lt h1 (hd m (List.mem_cons_of_mem n hm)) h2

/-- C2 witness: `range = 10`, single draw `7`: the call succeeds with a
value below `10`. -/
theorem lemire_range_containment_witness :
    (0, 0, 1).1 = 0 ∧ ((0 : ℕ), (0 : ℕ), (1 : ℕ)).2.1 < 10 :=
  lemire_range_containment 10 0 [7] (0, 0, 1) (by decide) (by decide)
    (by intro n hn; simp at hn; omega) (by decide)

/-- C3: `lemire_rng` signals an error (non-zero return) exactly when
`range = 0`, and in that case it consumes no draw and leaves the result
slot untouched; for `range > 0` it never signals an error. -/
theorem lemire_zero_range_contract (range result0 : ℕ) (draws : List ℕ)
    (out : ℕ × ℕ × ℕ) (h : lemire_rng range result0 draws = some out) :
    (out.1 ≠ 0 ↔ range = 0) ∧ (range = 0 → out = (1, result0, 0)) := by
  by_cases hr : range = 0
  · subst hr
    rw [lemire_rng.eq_def, if_pos rfl] at h
    have hout : ((1 : ℕ), result0, 0) = out := Option.some.inj h
    subst hout
    exact ⟨by norm_num, fun _ => rfl⟩
  · have hcode : out.1 = 0 := by
      cases draws with
      | nil => rw [lemire_rng_nil range result0 hr] at h; exact absurd h (by simp)
      | cons n rest =>
        rw [lemire_rng_cons range result0 n rest hr] at h
        by_cases hf : range ≤ (compute_interval n range).2
        · rw [if_pos hf] at h
          have hout : ((0 : ℕ), (compute_interval n range).1, 1) = out :=
            Option.some.inj h
          rw [← hout]
        · rw [if_neg hf] at h
          cases hloop : lemire_loop range (rejection_interval_upper_bound range)
              (compute_interval n range).1 (compute_interval n range).2 rest with
          | none => rw [hloop] at h; exact absurd h (by simp)
          | some p =>
            obtain ⟨pv, pk⟩ := p
            rw [hloop] at h
            have hout : ((0 : ℕ), pv, pk + 1) = out := Option.some.inj h
            rw [← hout]
    exact ⟨⟨fun hne => absurd hcode hne, fun h0 => absurd h0 hr⟩,
      fun h0 => absurd h0 hr⟩

/-- C3 witness: at `range = 0` the call returns code 1, result untouched,
zero draws consumed. -/
theorem lemire_zero_range_contract_witness :
    (((1 : ℕ), (5 : ℕ), (0 : ℕ)).1 ≠ 0 ↔ (0 : ℕ) = 0) ∧
      ((0 : ℕ) = 0 → ((1 : ℕ), (5 : ℕ), (0 : ℕ)) = (1, 5, 0)) :=
  lemire_zero_range_contract 0 5 [3] (1, 5, 0) (by decide)

/-- C4: for every nonzero 32-bit `range`, the `uint32` expression
`(-range) % range` (line 86) equals `2^32 mod range`. -/
theorem lemire_threshold_identity (range : ℕ) (h1 : 0 < range)
    (h2 : range < 2 ^ 32) :
    rejection_interval_upper_bound range = 2 ^ 32 % range :=
  threshold_eq h1 h2

/-- C4 witness: at `range = 12345` the `uint32` negate-then-mod expression
equals `2^32 mod 12345`. -/
theorem lemire_threshold_identity_witness :
    rejection_interval_upper_bound 12345 = 2 ^ 32 % 12345 :=
  lemire_threshold_identity 12345 (by decide) (by decide)

/-- C10: with `range = 0`, `lemire_rng` returns 1 without writing through
the result pointer: the caller's value is exactly what it was before the
call, and no draw is consumed. -/
theorem lemire_error_leaves_result (result0 : ℕ) (draws : List ℕ) :
    lemire_rng 0 result0 draws = some (1, result0, 0) := by
  rw [lemire_rng.eq_def, if_pos rfl]

/-- C5: the threshold `2^32 mod range` satisfies `threshold ≤ range`
(strictly below for `range > 1`, zero for a power of two), so the
`if (j >= range)` early return is a pure optimization: `lemire_rng` is
extensionally equal (same code, same result, same draws consumed) to the
variant without that branch. -/
theorem lemire_fast_accept_is_optimization (range result0 : ℕ) (draws : List ℕ)
    (h1 : 0 < range) (h2 : range < 2 ^ 32) :
    2 ^ 32 % range ≤ range ∧
    (1 < range → 2 ^ 32 % range < range) ∧
    (∀ e : ℕ, range = 2 ^ e → 2 ^ 32 % range = 0) ∧
    lemire_rng range result0 draws = lemire_rng_noFast range result0 draws := by
  have hr : range ≠ 0 := Nat.pos_iff_ne_zero.mp h1
  have hmod : 2 ^ 32 % range < range := Nat.mod_lt _ h1
  refine ⟨Nat.le_of_lt hmod, fun _ => hmod, ?_, ?_⟩
  · intro e he
    subst he
    have he32 : e < 32 := by
      by_contra hcon
      exact absurd (Nat.pow_le_pow_right (by norm_num) (Nat.not_lt.mp hcon)) (Nat.not_le.mpr h2)
    exact Nat.dvd_iff_mod_eq_zero.mp (pow_dvd_pow 2 (Nat.le_of_lt he32))
  · cases draws with
    | nil => rw [lemire_rng_nil _ _ hr, lemire_rng_noFast_nil _ _ hr]
    | cons n rest =>
      rw [lemire_rng_cons _ _ _ _ hr, lemire_rng_noFast_cons _ _ _ _ hr]
      by_cases hf : range ≤ (compute_interval n range).2
      · rw [if_pos hf, lemire_loop_done _ _ _ _ rest
          (Nat.le_trans (Nat.le_of_lt (threshold_lt h1 h2)) hf)]
      · rw [if_neg hf]

/-- C5 witness: at `range = 12345` with draws `[0, 7]` the branch-free
variant agrees with `lemire_rng`. -/
theorem lemire_fast_accept_is_optimization_witness :
    2 ^ 32 % 12345 ≤ 12345 ∧
    (1 < 12345 → 2 ^ 32 % 12345 < 12345) ∧
    (∀ e : ℕ, 12345 = 2 ^ e → 2 ^ 32 % 12345 = 0) ∧
    lemire_rng 12345 0 [0, 7] = lemire_rng_noFast 12345 0 [0, 7] :=
  lemire_fast_accept_is_optimization 12345 0 [0, 7] (by decide) (by decide)

/-- C6: when the first draw `n` has `low = (n*range) mod 2^32 ≥ range`,
`lemire_rng` consumes exactly one draw and stores
`high = (n*range) >> 32` computed from that draw. -/
theorem lemire_fast_path_one_draw (range result0 n : ℕ) (rest : List ℕ)
    (h1 : 0 < range) (h2 : range < 2 ^ 32) (hn : n < 2 ^ 32)
    (hlow : range ≤ n * range % 2 ^ 32) :
    lemire_rng range result0 (n :: rest) = some (0, n * range / 2 ^ 32, 1) := by
  have hr : range ≠ 0 := Nat.pos_iff_ne_zero.mp h1
  rw [lemire_rng_cons range result0 n rest hr,
    if_pos (by rw [compute_interval_snd]; exact hlow), compute_interval_fst hn h2]

/-- C6 witness: `range = 10`, first draw `7` (`low = 70 ≥ 10`): one draw,
result `70 >> 32 = 0`. -/
theorem lemire_fast_path_one_draw_witness :
    lemire_rng 10 0 [7, 99] = some (0, 7 * 10 / 2 ^ 32, 1) :=
  lemire_fast_path_one_draw 10 0 7 [99] (by decide) (by decide) (by decide)
    (by decide)

/-- C7: when the first draw is rejected (`low < 2^32 mod range`), at least
one additional draw is consumed, and the stored value is the high word of
the first draw in the consumed sequence whose low word reaches the
threshold. -/
theorem lemire_rejection_correct (range result0 n0 : ℕ) (rest : List ℕ)
    (out : ℕ × ℕ × ℕ) (h1 : 0 < range) (h2 : range < 2 ^ 32)
    (hrej : n0 * range % 2 ^ 32 < 2 ^ 32 % range)
    (h : lemire_rng range result0 (n0 :: rest) = some out) :
    2 ≤ out.2.2 ∧ ∃ m, first_accept range (2 ^ 32 % range) (n0 :: rest)
      = some (m, out.2.2) ∧ 2 ^ 32 % range ≤ m * range % 2 ^ 32 ∧
      out = (0, (compute_interval m range).1, out.2.2) := by
  have hr : range ≠ 0 := Nat.pos_iff_ne_zero.mp h1
  have hjlt : (compute_interval n0 range).2 < 2 ^ 32 % range := by
    rw [compute_interval_snd]; exact hrej
  have hmod : 2 ^ 32 % range < range := Nat.mod_lt _ h1
  have hf : ¬ range ≤ (compute_interval n0 range).2 :=
    Nat.not_le.mpr (Nat.lt_trans hjlt hmod)
  rw [lemire_rng_cons _ _ _ _ hr, if_neg hf, threshold_eq h1 h2,
    lemire_loop_finds _ _ _ _ rest hjlt] at h
  cases hfa : first_accept range (2 ^ 32 % range) rest with
  | none => rw [hfa] at h; exact absurd h (by simp)
  | some p =>
    obtain ⟨pm, pk⟩ := p
    rw [hfa] at h
    have hout : ((0 : ℕ), (compute_interval pm range).1, pk + 1) = out :=
      Option.some.inj h
    subst hout
    obtain ⟨hk, _, hacc⟩ := first_accept_mem range _ rest pm pk hfa
    refine ⟨by show 2 ≤ pk + 1; omega, pm, ?_, ?_, rfl⟩
    · rw [first_accept, if_pos hjlt, hfa]
      rfl
    · rw [compute_interval_snd] at hacc
      exact hacc

/-- C7 witness: `range = 10` (threshold `6`), first draw `0` rejected,
second draw `7` accepted: two draws consumed, result is the high word of
draw `7`. -/
theorem lemire_rejection_correct_witness :
    2 ≤ ((0 : ℕ), (0 : ℕ), (2 : ℕ)).2.2 ∧
      ∃ m, first_accept 10 (2 ^ 32 % 10) [0, 7]
        = some (m, ((0 : ℕ), (0 : ℕ), (2 : ℕ)).2.2) ∧
        2 ^ 32 % 10 ≤ m * 10 % 2 ^ 32 ∧
        ((0 : ℕ), (0 : ℕ), (2 : ℕ)) = (0, (compute_interval m 10).1,
          ((0 : ℕ), (0 : ℕ), (2 : ℕ)).2.2) :=
  lemire_rejection_correct 10 0 0 [7] (0, 0, 2) (by decide) (by decide)
    (by decide) (by decide)

/-- C8: for `range` a power of two, the threshold is `0`, the rejection
loop body is never executed, and every call consumes exactly one draw,
accepting it on the first try. -/
theorem lemire_pow_two_single_draw (e result0 n : ℕ) (rest : List ℕ)
    (he : e < 32) :
    rejection_interval_upper_bound (2 ^ e) = 0 ∧
    lemire_rng (2 ^ e) result0 (n :: rest)
      = some (0, (compute_interval n (2 ^ e)).1, 1) := by
  have h1 : 0 < 2 ^ e := Nat.two_pow_pos e
  have h2 : (2 : ℕ) ^ e < 2 ^ 32 := Nat.pow_lt_pow_right (by norm_num) he
  have hthr : rejection_interval_upper_bound (2 ^ e) = 0 := by
    rw [threshold_eq h1 h2]
    exact Nat.dvd_iff_mod_eq_zero.mp (pow_dvd_pow 2 (Nat.le_of_lt he))
  have hr : (2 : ℕ) ^ e ≠ 0 := Nat.pos_iff_ne_zero.mp h1
  refine ⟨hthr, ?_⟩
  rw [lemire_rng_cons _ _ _ _ hr]
  by_cases hf : 2 ^ e ≤ (compute_interval n (2 ^ e)).2
  · rw [if_pos hf]
  · rw [if_neg hf, hthr, lemire_loop_done _ _ _ _ rest (Nat.zero_le _)]

/-- C8 witness: `range = 16`, single draw `5`: threshold `0`, one draw
consumed, accepted immediately. -/
theorem lemire_pow_two_single_draw_witness :
    rejection_interval_upper_bound (2 ^ 4) = 0 ∧
    lemire_rng (2 ^ 4) 0 [5]
      = some (0, (compute_interval 5 (2 ^ 4)).1, 1) :=
  lemire_pow_two_single_draw 4 0 5 [] (by decide)

/-- C9: for every `range > 0` and every draw sequence containing at least
one value `n` with `(n*range) mod 2^32 ≥ 2^32 mod range`, `lemire_rng`
terminates (returns a result instead of exhausting the draws). -/
theorem lemire_terminates_with_accept (range result0 : ℕ) (draws : List ℕ)
    (h1 : 0 < range) (h2 : range < 2 ^ 32)
    (h : ∃ n ∈ draws, 2 ^ 32 % range ≤ n * range % 2 ^ 32) :
    (lemire_rng range result0 draws).isSome = true := by
  have hr : range ≠ 0 := Nat.pos_iff_ne_zero.mp h1
  cases draws with
  | nil => obtain ⟨n, hn, _⟩ := h; simp at hn
  | cons n0 rest =>
    rw [lemire_rng_cons _ _ _ _ hr]
    by_cases hf : range ≤ (compute_interval n0 range).2
    · rw [if_pos hf]; rfl
    · rw [if_neg hf]
      by_cases hacc : rejection_interval_upper_bound range ≤ (compute_interval n0 range).2
      · rw [lemire_loop_done _ _ _ _ rest hacc]; rfl
      · push_neg at hacc
        rw [lemire_loop_finds _ _ _ _ rest hacc]
        have hrest : ∃ m ∈ rest, rejection_interval_upper_bound range
            ≤ (compute_interval m range).2 := by
          obtain ⟨m, hm, hma⟩ := h
          rcases List.mem_cons.mp hm with rfl | hm'
          · exfalso
            rw [threshold_eq h1 h2, compute_interval_snd] at hacc
            omega
          · exact ⟨m, hm', by rw [threshold_eq h1 h2, compute_interval_snd]; exact hma⟩
        have hsome := first_accept_isSome range
          (rejection_interval_upper_bound range) rest hrest
        cases hfa : first_accept range (rejection_interval_upper_bound range) rest with
        | none => rw [hfa] at hsome; simp at hsome
        | some p => rfl

/-- C9 witness: `range = 10`, draws `[0, 7]`: the second draw is accepted
and the call returns a result. -/
theorem lemire_terminates_with_accept_witness :
    (lemire_rng 10 0 [0, 7]).isSome = true :=
  lemire_terminates_with_accept 10 0 [0, 7] (by decide) (by decide)
    ⟨7, by decide, by decide⟩

end LemireRng
